import Mathlib

/-!
# A verification of the `blockchain` package

This file gives a shallow embedding of the Go package `blockchain`
(`Block`, `Blockchain`, `calculateHash`, `mine`, `CreateBlockchain`,
`AddTransaction`, `IsValid`) and proves properties of the embedding.

Modelling conventions:

* SHA-256, the JSON encoder and `strconv.Itoa` are embedded concretely
  (the SHA-256 and JSON definitions follow FIPS 180-4 and Go's
  `encoding/json` string encoder; the SHA-256 model was checked against
  the standard test vectors).
* `time.Time` values are modelled by the string `time.Time.String`
  renders them to, since that rendering is the only way the package
  consumes a timestamp.  Each call that reads the clock takes that
  string as an extra argument.
* The `float64` transaction amount is modelled by the decimal text
  `encoding/json` renders it to, since that text is the only way the
  package consumes the amount.
* Go runtime panics (negative repeat count in `strings.Repeat`,
  indexing an empty slice) are modelled by the `Outcome.crash` result.
* The unbounded mining loop is modelled with an explicit fuel bound on
  the number of iterations; `Outcome.outOfFuel` reports fuel
  exhaustion, never a behaviour of the Go code.
* Go `int` values are modelled by `Int` with 64-bit wraparound applied
  where the code increments.
-/

/-! ## SHA-256 -/

/-- Reduce a natural number modulo `2^32`, the word size of SHA-256. -/
def w32 (n : Nat) : Nat := n % 4294967296

/-- Right rotation of a 32-bit word (input assumed `< 2^32`). -/
def rotr (n x : Nat) : Nat := x / 2 ^ n + x % 2 ^ n * 2 ^ (32 - n)

/-- Logical right shift of a 32-bit word. -/
def shr (n x : Nat) : Nat := x / 2 ^ n

/-- Bitwise complement of a 32-bit word (input assumed `< 2^32`). -/
def not32 (x : Nat) : Nat := 4294967295 - x % 4294967296

/-- SHA-256 choice function. -/
def ch (x y z : Nat) : Nat := Nat.xor (Nat.land x y) (Nat.land (not32 x) z)

/-- SHA-256 majority function. -/
def maj (x y z : Nat) : Nat :=
  Nat.xor (Nat.xor (Nat.land x y) (Nat.land x z)) (Nat.land y z)

/-- SHA-256 big sigma 0. -/
def bigSig0 (x : Nat) : Nat := Nat.xor (Nat.xor (rotr 2 x) (rotr 13 x)) (rotr 22 x)

/-- SHA-256 big sigma 1. -/
def bigSig1 (x : Nat) : Nat := Nat.xor (Nat.xor (rotr 6 x) (rotr 11 x)) (rotr 25 x)

/-- SHA-256 small sigma 0. -/
def smallSig0 (x : Nat) : Nat := Nat.xor (Nat.xor (rotr 7 x) (rotr 18 x)) (shr 3 x)

/-- SHA-256 small sigma 1. -/
def smallSig1 (x : Nat) : Nat := Nat.xor (Nat.xor (rotr 17 x) (rotr 19 x)) (shr 10 x)

/-- The 64 SHA-256 round constants. -/
def kConsts : List Nat :=
  [1116352408, 1899447441, 3049323471, 3921009573, 961987163,
   1508970993, 2453635748, 2870763221, 3624381080, 310598401,
   607225278, 1426881987, 1925078388, 2162078206, 2614888103,
   3248222580, 3835390401, 4022224774, 264347078, 604807628,
   770255983, 1249150122, 1555081692, 1996064986, 2554220882,
   2821834349, 2952996808, 3210313671, 3336571891, 3584528711,
   113926993, 338241895, 666307205, 773529912, 1294757372,
   1396182291, 1695183700, 1986661051, 2177026350, 2456956037,
   2730485921, 2820302411, 3259730800, 3345764771, 3516065817,
   3600352804, 4094571909, 275423344, 430227734, 506948616,
   659060556, 883997877, 958139571, 1322822218, 1537002063,
   1747873779, 1955562222, 2024104815, 2227730452, 2361852424,
   2428436474, 2756734187, 3204031479, 3329325298]

/-- SHA-256 working state: eight 32-bit words. -/
structure Digest where
  a : Nat
  b : Nat
  c : Nat
  d : Nat
  e : Nat
  f : Nat
  g : Nat
  h : Nat

/-- SHA-256 initial hash value. -/
def initDigest : Digest :=
  ⟨1779033703, 3144134277, 1013904242, 2773480762, 1359893119, 2600822924, 528734635, 1541459225⟩

/-- One SHA-256 compression round: consume the pair of a round constant and a
message-schedule word. -/
def shaStep (s : Digest) (kw : Nat × Nat) : Digest :=
  let t1 := w32 (s.h + bigSig1 s.e + ch s.e s.f s.g + kw.1 + kw.2)
  let t2 := w32 (bigSig0 s.a + maj s.a s.b s.c)
  ⟨w32 (t1 + t2), s.a, s.b, s.c, w32 (s.d + t1), s.e, s.f, s.g⟩

/-- Pack a big-endian byte list into 32-bit words (four bytes per word). -/
def bytesToWords : List Nat → List Nat
  | b0 :: b1 :: b2 :: b3 :: rest =>
    (b0 * 16777216 + b1 * 65536 + b2 * 256 + b3) :: bytesToWords rest
  | _ => []

/-- One message-schedule extension step: append the next word. -/
def schedStep (w : List Nat) : List Nat :=
  let t := w.length
  w ++ [w32 (smallSig1 (w.getD (t - 2) 0) + w.getD (t - 7) 0 +
             smallSig0 (w.getD (t - 15) 0) + w.getD (t - 16) 0)]

/-- Extend the 16 words of a chunk to the 64-entry message schedule. -/
def schedule (w16 : List Nat) : List Nat :=
  (List.range 48).foldl (fun w _ => schedStep w) w16

/-- Process one 64-byte chunk: run the 64 rounds, then add the result into the
incoming state wordwise. -/
def processChunk (s : Digest) (chunk : List Nat) : Digest :=
  let ws := schedule (bytesToWords chunk)
  let t := (kConsts.zip ws).foldl shaStep s
  ⟨w32 (s.a + t.a), w32 (s.b + t.b), w32 (s.c + t.c), w32 (s.d + t.d),
   w32 (s.e + t.e), w32 (s.f + t.f), w32 (s.g + t.g), w32 (s.h + t.h)⟩

/-- Big-endian 64-bit encoding of a message length in bits. -/
def be64 (n : Nat) : List Nat :=
  [n / 2 ^ 56 % 256, n / 2 ^ 48 % 256, n / 2 ^ 40 % 256, n / 2 ^ 32 % 256,
   n / 2 ^ 24 % 256, n / 2 ^ 16 % 256, n / 2 ^ 8 % 256, n % 256]

/-- SHA-256 padding: append `0x80`, zero pad to 56 mod 64, then the bit length. -/
def padMsg (bytes : List Nat) : List Nat :=
  let l := bytes.length
  bytes ++ [128] ++ List.replicate ((64 - (l + 9) % 64) % 64) 0 ++ be64 (8 * l)

/-- Fuel-driven 64-byte chunking helper (structurally recursive so that the
kernel can evaluate it; the fuel is the byte count, always sufficient). -/
def chunksAux : Nat → List Nat → List (List Nat)
  | 0, _ => []
  | _ + 1, [] => []
  | f + 1, a :: t => ((a :: t).take 64) :: chunksAux f ((a :: t).drop 64)

/-- Split a byte list (whose length is a multiple of 64) into 64-byte chunks. -/
def chunks64 (l : List Nat) : List (List Nat) := chunksAux l.length l

/-- UTF-8 encoding of one character, as a byte list. -/
def utf8Bytes (c : Char) : List Nat :=
  let n := c.toNat
  if n < 128 then [n]
  else if n < 2048 then [192 + n / 64, 128 + n % 64]
  else if n < 65536 then [224 + n / 4096, 128 + n / 64 % 64, 128 + n % 64]
  else [240 + n / 262144, 128 + n / 4096 % 64, 128 + n / 64 % 64, 128 + n % 64]

/-- UTF-8 encoding of a string, as a byte list; this is what Go's conversion
from `string` to a byte slice produces. -/
def strBytes (s : String) : List Nat := List.flatten (s.data.map utf8Bytes)

/-- Lowercase hexadecimal digit for a value below 16. -/
def hexDigit (n : Nat) : Char := if n < 10 then Char.ofNat (48 + n) else Char.ofNat (87 + n)

/-- The eight lowercase hex characters of one 32-bit word, most significant first. -/
def wdHex (w : Nat) : List Char :=
  [hexDigit (w / 268435456 % 16), hexDigit (w / 16777216 % 16),
   hexDigit (w / 1048576 % 16), hexDigit (w / 65536 % 16),
   hexDigit (w / 4096 % 16), hexDigit (w / 256 % 16),
   hexDigit (w / 16 % 16), hexDigit (w % 16)]

/-- SHA-256 of a string, rendered as 64 lowercase hex characters.  This models
the Go expression `fmt.Sprintf("%x", sha256.Sum256(bytes))` applied to the
UTF-8 bytes of the string. -/
def sha256hex (msg : String) : String :=
  let final := (chunks64 (padMsg (strBytes msg))).foldl processChunk initDigest
  String.mk (wdHex final.a ++ wdHex final.b ++ wdHex final.c ++ wdHex final.d ++
             wdHex final.e ++ wdHex final.f ++ wdHex final.g ++ wdHex final.h)

/-! ## Decimal and JSON rendering -/

/-- Decimal digit character. -/
def digitChar (n : Nat) : Char := Char.ofNat (48 + n)

/-- Decimal digit characters of a natural number (fuel-driven helper; the fuel
is always sufficient at `n + 1`). -/
def natChars (fuel n : Nat) : List Char :=
  match fuel with
  | 0 => []
  | f + 1 => if n < 10 then [digitChar n] else natChars f (n / 10) ++ [digitChar (n % 10)]

/-- Decimal string of a natural number. -/
def natStr (n : Nat) : String := String.mk (natChars (n + 1) n)

/-- Decimal string of an integer; models Go's `strconv.Itoa`. -/
def itoa (n : Int) : String := if n < 0 then "-" ++ natStr (-n).toNat else natStr n.toNat

/-- Escape one character the way Go's `encoding/json` string encoder does
(HTML escaping enabled, the `json.Marshal` default). -/
def jsonEscChar (c : Char) : List Char :=
  if c = '"' then ['\\', '"']
  else if c = '\\' then ['\\', '\\']
  else if c = '\n' then ['\\', 'n']
  else if c = '\r' then ['\\', 'r']
  else if c = '\t' then ['\\', 't']
  else if c.toNat < 32 ∨ c = '<' ∨ c = '>' ∨ c = '&' then
    ['\\', 'u', '0', '0', hexDigit (c.toNat / 16), hexDigit (c.toNat % 16)]
  else if c.toNat = 8232 ∨ c.toNat = 8233 then
    ['\\', 'u', '2', '0', '2', hexDigit (c.toNat % 16)]
  else [c]

/-- JSON string literal for `s`, double quotes included. -/
def jsonStr (s : String) : String :=
  String.mk ('"' :: List.flatten (s.data.map jsonEscChar) ++ ['"'])

/-! ## The data model -/

/-- One transaction record, the fixed shape of a block's `data` map: the
`from` and `to` identifiers, and the decimal text the JSON encoder renders
the `float64` amount to (the numeric formatting itself is outside the model;
the text is the only way the package consumes the amount). -/
structure Payload where
  fromAddr : String
  toAddr : String
  amountRepr : String
deriving DecidableEq

/-- JSON serialization of a block's `data` field; models Go's `json.Marshal`
on the payload map: a `nil` map (the genesis block) marshals to `null`, and
map keys are emitted in sorted order (`amount`, `from`, `to`). -/
def jsonMarshal : Option Payload → String
  | none => "null"
  | some p =>
    "\x7b\"amount\":" ++ p.amountRepr ++ ",\"from\":" ++ jsonStr p.fromAddr ++
      ",\"to\":" ++ jsonStr p.toAddr ++ "\x7d"

/-- One block of the chain: the transaction payload, the stored hash, the
link to the previous block's hash, the creation timestamp, and the
proof-of-work counter. -/
structure Block where
  data : Option Payload
  hash : String
  previousHash : String
  timestamp : String
  pow : Int
deriving DecidableEq

/-- The chain: the genesis block, the block sequence (index 0 is the genesis
block), and the mining difficulty. -/
structure Blockchain where
  genesisBlock : Block
  chain : List Block
  difficulty : Int
deriving DecidableEq

/-! ## The operations -/

/-- Hash of a block: SHA-256 (as lowercase hex) of the concatenation of the
previous hash, the JSON payload, the timestamp rendering and the decimal
proof-of-work value.  The stored `hash` field is not part of the input. -/
def Block.calculateHash (b : Block) : String :=
  sha256hex (b.previousHash ++ jsonMarshal b.data ++ b.timestamp ++ itoa b.pow)

/-- Does the character list `s` start with the character list `pre`? -/
def listHasPre : List Char → List Char → Bool
  | _, [] => true
  | [], _ :: _ => false
  | a :: s, p :: ps => p == a && listHasPre s ps

/-- Does `s` start with `pre`?  Models Go's `strings.HasPrefix` applied to
`s` and `pre`. -/
def strStarts (s pre : String) : Bool := listHasPre s.data pre.data

/-- Models Go's `strings.Repeat` applied to `s` and `count`: `count` copies
of `s` concatenated; `none` models the runtime panic Go raises on a negative
count. -/
def strRepeat (s : String) (count : Int) : Option String :=
  if count < 0 then none
  else some (String.mk (List.flatten (List.replicate count.toNat s.data)))

/-- Increment of a Go `int` (64-bit two's complement, wrapping). -/
def inc64 (n : Int) : Int := (n + 1 + 2 ^ 63) % 2 ^ 64 - 2 ^ 63

/-- Possible outcomes of running code that can panic or exhaust its fuel
bound: a result, a Go runtime panic, or fuel exhaustion (the last is an
artifact of the bounded model, never a behaviour of the Go code). -/
inductive Outcome (α : Type) where
  | ok (val : α) : Outcome α
  | crash : Outcome α
  | outOfFuel : Outcome α
deriving DecidableEq

/-- One run of the mining loop body: increment `pow`, then store the hash
recomputed at the new `pow`. -/
def minedStep (b : Block) : Block :=
  { b with pow := inc64 b.pow,
           hash := Block.calculateHash { b with pow := inc64 b.pow } }

/-- The mining loop, with the target zero string precomputed and a fuel bound
on the number of iterations.  Returns the final block together with the
number of times the loop body ran (each body run is exactly one hash
computation).  Each iteration first tests whether the current stored hash
starts with `zeros`, and otherwise runs `minedStep`. -/
def mineLoop (zeros : String) : Nat → Block → Nat → Outcome (Block × Nat)
  | 0, b, attempts =>
    if strStarts b.hash zeros then Outcome.ok (b, attempts) else Outcome.outOfFuel
  | f + 1, b, attempts =>
    if strStarts b.hash zeros then Outcome.ok (b, attempts)
    else mineLoop zeros f (minedStep b) (attempts + 1)

/-- Mining a block at the given difficulty: loop until the stored hash starts
with `difficulty` zero characters.  `crash` models the Go runtime panic from
`strings.Repeat` when the difficulty is negative (raised at the first loop
condition evaluation, before any hash is computed). -/
def Block.mine (b : Block) (difficulty : Int) (fuel : Nat) : Outcome (Block × Nat) :=
  match strRepeat "0" difficulty with
  | none => Outcome.crash
  | some zeros => mineLoop zeros fuel b 0

/-- Create a chain at the given difficulty: a genesis block with sentinel
hash `"0"`, no payload, the construction timestamp, empty previous hash and
zero proof of work; the chain holds exactly that block.  `ts` is the
construction time `time.Now` returned, rendered to a string. -/
def CreateBlockchain (difficulty : Int) (ts : String) : Blockchain :=
  let genesisBlock : Block :=
    { data := none, hash := "0", previousHash := "", timestamp := ts, pow := 0 }
  { genesisBlock := genesisBlock, chain := [genesisBlock], difficulty := difficulty }

/-- Append one transaction: build the payload, link the new block to the last
block's stored hash, stamp it with the caller-supplied timestamp, mine it at
the chain's difficulty, and append it.  `crash` models the Go runtime panics
(indexing an empty chain, or mining at a negative difficulty); `outOfFuel`
reports that the fuel bound did not cover the mining search, in which case
nothing observable has happened to the chain yet. -/
def Blockchain.AddTransaction (c : Blockchain) (fromAddr toAddr amountRepr ts : String)
    (fuel : Nat) : Outcome Blockchain :=
  let blockData : Option Payload :=
    some { fromAddr := fromAddr, toAddr := toAddr, amountRepr := amountRepr }
  match c.chain.getLast? with
  | none => Outcome.crash
  | some lastBlock =>
    let newBlock : Block :=
      { data := blockData, hash := "", previousHash := lastBlock.hash,
        timestamp := ts, pow := 0 }
    match newBlock.mine c.difficulty fuel with
    | Outcome.ok (mined, _) => Outcome.ok { c with chain := c.chain ++ [mined] }
    | Outcome.crash => Outcome.crash
    | Outcome.outOfFuel => Outcome.outOfFuel

/-- The validation traversal over adjacent pairs: false as soon as a block's
stored hash differs from its recomputed hash or its previous-hash link
differs from its predecessor's stored hash. -/
def isValidAux : List Block → Bool
  | prev :: curr :: rest =>
    if curr.hash != curr.calculateHash || curr.previousHash != prev.hash then false
    else isValidAux (curr :: rest)
  | _ => true

/-- Chain validation: check every adjacent pair from the second block
onward.  (On a chain with fewer than two blocks no pair is checked; the Go
code would additionally panic on a chain with no block at all, a state not
reachable through the package's constructors.) -/
def Blockchain.IsValid (c : Blockchain) : Bool := isValidAux c.chain

/-- The inputs of one `AddTransaction` call: the two identifiers, the
rendered amount, the environment timestamp, and the fuel bound for its
mining loop. -/
structure TxInput where
  fromAddr : String
  toAddr : String
  amountRepr : String
  ts : String
  fuel : Nat
deriving DecidableEq

/-- Run a sequence of `AddTransaction` calls, stopping at the first failure. -/
def runTxs (c : Blockchain) : List TxInput → Outcome Blockchain
  | [] => Outcome.ok c
  | t :: rest =>
    match c.AddTransaction t.fromAddr t.toAddr t.amountRepr t.ts t.fuel with
    | Outcome.ok c2 => runTxs c2 rest
    | Outcome.crash => Outcome.crash
    | Outcome.outOfFuel => Outcome.outOfFuel

/-! ## Basic facts about the hash rendering -/

theorem sha256hex_length (s : String) : (sha256hex s).length = 64 := by
  simp [sha256hex, String.length, wdHex]

theorem calculateHash_length (b : Block) : b.calculateHash.length = 64 :=
  sha256hex_length _

theorem calculateHash_ne_empty (b : Block) : b.calculateHash ≠ "" := by
  intro h
  have h2 := congrArg String.length h
  rw [calculateHash_length] at h2
  exact absurd h2 (by decide)

theorem empty_ne_calculateHash (b : Block) : "" ≠ b.calculateHash :=
  fun h => calculateHash_ne_empty b h.symm

/-- Recomputing a block's hash ignores the stored `hash` field. -/
theorem calculateHash_set_hash (b : Block) (s : String) :
    Block.calculateHash { b with hash := s } = b.calculateHash := rfl

/-! ## Facts about the string helpers -/

theorem listHasPre_nil (s : List Char) : listHasPre s [] = true := by
  cases s <;> rfl

theorem listHasPre_iff (pre s : List Char) :
    listHasPre s pre = true ↔ List.IsPrefix pre s := by
  induction pre generalizing s with
  | nil => simp [listHasPre_nil]
  | cons p ps ih =>
    cases s with
    | nil =>
      simp [listHasPre]
    | cons a t =>
      rw [listHasPre]
      simp [List.cons_prefix_cons, ih, And.comm]

theorem strStarts_empty_iff (pre : String) :
    strStarts "" pre = true ↔ pre = "" := by
  constructor
  · intro h
    cases hp : pre.data with
    | nil =>
      cases pre with
      | mk l => simp_all
    | cons c cs =>
      rw [strStarts, hp] at h
      have : ("" : String).data = [] := rfl
      rw [this] at h
      simp [listHasPre] at h
  · intro h
    subst h
    rfl

/-! ## Facts about the mining loop -/

theorem mineLoop_ok_fields (zeros : String) (fuel : Nat) :
    ∀ (b : Block) (a : Nat) (b' : Block) (n : Nat),
      mineLoop zeros fuel b a = Outcome.ok (b', n) →
      b'.data = b.data ∧ b'.previousHash = b.previousHash ∧ b'.timestamp = b.timestamp := by
  induction fuel with
  | zero =>
    intro b a b' n h
    rw [mineLoop] at h
    split at h
    · cases h; exact ⟨rfl, rfl, rfl⟩
    · cases h
  | succ f ih =>
    intro b a b' n h
    rw [mineLoop] at h
    split at h
    · cases h; exact ⟨rfl, rfl, rfl⟩
    · exact ih (minedStep b) (a + 1) b' n h

theorem mineLoop_ok_starts (zeros : String) (fuel : Nat) :
    ∀ (b : Block) (a : Nat) (b' : Block) (n : Nat),
      mineLoop zeros fuel b a = Outcome.ok (b', n) →
      strStarts b'.hash zeros = true := by
  induction fuel with
  | zero =>
    intro b a b' n h
    rw [mineLoop] at h
    split at h
    · rename_i hc; cases h; exact hc
    · cases h
  | succ f ih =>
    intro b a b' n h
    rw [mineLoop] at h
    split at h
    · rename_i hc; cases h; exact hc
    · exact ih (minedStep b) (a + 1) b' n h

theorem mineLoop_ok_hash (zeros : String) (fuel : Nat) :
    ∀ (b : Block) (a : Nat) (b' : Block) (n : Nat),
      mineLoop zeros fuel b a = Outcome.ok (b', n) →
      b' = b ∨ b'.hash = b'.calculateHash := by
  induction fuel with
  | zero =>
    intro b a b' n h
    rw [mineLoop] at h
    split at h
    · cases h; exact Or.inl rfl
    · cases h
  | succ f ih =>
    intro b a b' n h
    rw [mineLoop] at h
    split at h
    · cases h; exact Or.inl rfl
    · rcases ih (minedStep b) (a + 1) b' n h with heq | hok
      · subst heq
        exact Or.inr rfl
      · exact Or.inr hok

/-- A mined block that entered the loop with an empty stored hash at positive
difficulty exits with a correctly stored hash. -/
theorem mine_ok_hash (b : Block) (d : Int) (fuel : Nat) (b' : Block) (n : Nat)
    (hd : 1 ≤ d) (hb : b.hash = "")
    (h : b.mine d fuel = Outcome.ok (b', n)) :
    b'.hash = b'.calculateHash := by
  rw [Block.mine] at h
  cases hz : strRepeat "0" d with
  | none => rw [hz] at h; cases h
  | some zeros =>
    rw [hz] at h
    dsimp only at h
    rcases mineLoop_ok_hash zeros fuel b 0 b' n h with heq | hok
    · -- immediate exit is impossible: the empty hash cannot start with a
      -- nonempty zero target
      exfalso
      have hst := mineLoop_ok_starts zeros fuel b 0 b' n h
      rw [heq, hb] at hst
      have hzempty := (strStarts_empty_iff zeros).mp hst
      subst hzempty
      rw [strRepeat, if_neg (by omega : ¬ d < 0)] at hz
      have hdata := congrArg String.data (Option.some.inj hz)
      cases ht : d.toNat with
      | zero => omega
      | succ k =>
        rw [ht] at hdata
        simp [List.replicate] at hdata
    · exact hok

/-- Mining preserves the payload, link and timestamp fields. -/
theorem mine_ok_fields (b : Block) (d : Int) (fuel : Nat) (b' : Block) (n : Nat)
    (h : b.mine d fuel = Outcome.ok (b', n)) :
    b'.data = b.data ∧ b'.previousHash = b.previousHash ∧ b'.timestamp = b.timestamp := by
  rw [Block.mine] at h
  cases hz : strRepeat "0" d with
  | none => rw [hz] at h; cases h
  | some zeros =>
    rw [hz] at h
    dsimp only at h
    exact mineLoop_ok_fields zeros fuel b 0 b' n h

/-- On success the stored hash starts with the zero target. -/
theorem mine_ok_starts (b : Block) (d : Int) (fuel : Nat) (b' : Block) (n : Nat)
    (hd : 0 ≤ d)
    (h : b.mine d fuel = Outcome.ok (b', n)) :
    List.IsPrefix (List.replicate d.toNat '0') b'.hash.data := by
  rw [Block.mine] at h
  cases hz : strRepeat "0" d with
  | none => rw [hz] at h; cases h
  | some zeros =>
    rw [hz] at h
    dsimp only at h
    have hst := mineLoop_ok_starts zeros fuel b 0 b' n h
    rw [strRepeat, if_neg (by omega : ¬ d < 0)] at hz
    have hzd := congrArg String.data (Option.some.inj hz)
    have hrep : zeros.data = List.replicate d.toNat '0' := by
      rw [← hzd]
      show (List.replicate d.toNat ("0" : String).data).flatten = List.replicate d.toNat '0'
      induction d.toNat with
      | zero => rfl
      | succ k ihk => simp only [List.replicate, List.flatten_cons, ihk]; rfl
    rw [strStarts, hrep] at hst
    exact (listHasPre_iff _ _).mp hst

/-- At difficulty zero the mining loop exits before its first iteration: any
block is returned unchanged with zero loop-body runs. -/
theorem mine_zero (b : Block) (fuel : Nat) : b.mine 0 fuel = Outcome.ok (b, 0) := by
  have hz : strRepeat "0" 0 = some "" := rfl
  rw [Block.mine, hz]
  dsimp only
  have hst : strStarts b.hash "" = true := listHasPre_nil b.hash.data
  cases fuel with
  | zero => rw [mineLoop, if_pos hst]
  | succ f => rw [mineLoop, if_pos hst]

/-! ## The pairwise chain invariant -/

/-- The property `IsValid` traverses for: every adjacent pair from the second
block onward has a correctly stored hash and a correct link. -/
def pairsOk : List Block → Prop
  | prev :: curr :: rest =>
    (curr.hash = curr.calculateHash ∧ curr.previousHash = prev.hash) ∧ pairsOk (curr :: rest)
  | _ => True

theorem isValidAux_eq_true_iff_pairsOk (l : List Block) :
    isValidAux l = true ↔ pairsOk l := by
  induction l with
  | nil => simp [isValidAux, pairsOk]
  | cons a t ih =>
    cases t with
    | nil => simp [isValidAux, pairsOk]
    | cons b t2 =>
      by_cases h1 : b.hash = b.calculateHash
      · by_cases h2 : b.previousHash = a.hash
        · simp [isValidAux, pairsOk, h1, h2, ih]
        · simp [isValidAux, pairsOk, h1, h2]
      · simp [isValidAux, pairsOk, h1]

theorem pairsOk_iff_get (l : List Block) :
    pairsOk l ↔ ∀ (i : Nat) (h : i + 1 < l.length),
      ((l.get ⟨i + 1, h⟩).hash = (l.get ⟨i + 1, h⟩).calculateHash ∧
       (l.get ⟨i + 1, h⟩).previousHash = (l.get ⟨i, Nat.lt_of_succ_lt h⟩).hash) := by
  induction l with
  | nil =>
    constructor
    · intro _ i h
      exact absurd h (by simp)
    · intro _
      trivial
  | cons a t ih =>
    cases t with
    | nil =>
      constructor
      · intro _ i h
        simp at h
      · intro _
        trivial
    | cons b t2 =>
      rw [pairsOk, ih]
      constructor
      · rintro ⟨h0, hrest⟩ i h
        cases i with
        | zero => exact h0
        | succ j =>
          exact hrest j (by simpa using h)
      · intro hall
        refine ⟨hall 0 (by simp), ?_⟩
        intro j h
        exact hall (j + 1) (by simpa using h)

theorem pairsOk_append (b lastB : Block)
    (hb : b.hash = b.calculateHash) (hlink : b.previousHash = lastB.hash) :
    ∀ l : List Block, pairsOk l → l.getLast? = some lastB → pairsOk (l ++ [b]) := by
  intro l
  induction l with
  | nil =>
    intro _ hlast
    cases hlast
  | cons a t ih =>
    cases t with
    | nil =>
      intro _ hlast
      have ha : a = lastB := by simpa using hlast
      subst ha
      exact ⟨⟨hb, hlink⟩, trivial⟩
    | cons c t2 =>
      intro hOk hlast
      rw [List.getLast?_cons_cons] at hlast
      exact ⟨hOk.1, ih hOk.2 hlast⟩

/-! ## Facts about appending a transaction -/

theorem addTransaction_ok (c : Blockchain) (fa ta am ts : String) (fuel : Nat) (c' : Blockchain)
    (h : c.AddTransaction fa ta am ts fuel = Outcome.ok c') :
    ∃ lastB mined n,
      c.chain.getLast? = some lastB ∧
      Block.mine { data := some ⟨fa, ta, am⟩, hash := "", previousHash := lastB.hash,
                   timestamp := ts, pow := 0 } c.difficulty fuel = Outcome.ok (mined, n) ∧
      c' = { c with chain := c.chain ++ [mined] } := by
  rw [Blockchain.AddTransaction] at h
  cases hl : c.chain.getLast? with
  | none => rw [hl] at h; cases h
  | some lastB =>
    rw [hl] at h
    dsimp only at h
    cases hm : Block.mine { data := some ⟨fa, ta, am⟩, hash := "", previousHash := lastB.hash,
                            timestamp := ts, pow := 0 } c.difficulty fuel with
    | ok p =>
      rw [hm] at h
      cases h
      exact ⟨lastB, p.1, p.2, rfl, by rw [hm], rfl⟩
    | crash => rw [hm] at h; cases h
    | outOfFuel => rw [hm] at h; cases h

/-- The invariant maintained by a run of successful appends at positive
difficulty: nonempty chain, fixed difficulty, and pairwise validity. -/
theorem runTxs_ok_inv (d : Int) (hd : 1 ≤ d) :
    ∀ (txs : List TxInput) (c c' : Blockchain),
      c.difficulty = d → c.chain ≠ [] → pairsOk c.chain →
      runTxs c txs = Outcome.ok c' →
      c'.difficulty = d ∧ c'.chain ≠ [] ∧ pairsOk c'.chain := by
  intro txs
  induction txs with
  | nil =>
    intro c c' hdiff hne hOk h
    rw [runTxs] at h
    cases h
    exact ⟨hdiff, hne, hOk⟩
  | cons t rest ih =>
    intro c c' hdiff hne hOk h
    rw [runTxs] at h
    cases ha : c.AddTransaction t.fromAddr t.toAddr t.amountRepr t.ts t.fuel with
    | ok c2 =>
      rw [ha] at h
      dsimp only at h
      obtain ⟨lastB, mined, n, hlast, hmine, hc2⟩ :=
        addTransaction_ok c _ _ _ _ _ c2 ha
      have hhash : mined.hash = mined.calculateHash := by
        apply mine_ok_hash _ c.difficulty t.fuel _ n (hdiff ▸ hd) rfl hmine
      have hfields := mine_ok_fields _ c.difficulty t.fuel mined n hmine
      have hlink : mined.previousHash = lastB.hash := hfields.2.1
      have hOk2 : pairsOk c2.chain := by
        rw [hc2]
        exact pairsOk_append mined lastB hhash hlink c.chain hOk hlast
      have hne2 : c2.chain ≠ [] := by
        rw [hc2]
        simp
      have hdiff2 : c2.difficulty = d := by rw [hc2]; exact hdiff
      exact ih c2 c' hdiff2 hne2 hOk2 h
    | crash => rw [ha] at h; cases h
    | outOfFuel => rw [ha] at h; cases h

/-! ## Facts about appending at difficulty zero -/

theorem addTransaction_zero (c : Blockchain) (fa ta am ts : String) (fuel : Nat) (lastB : Block)
    (hd : c.difficulty = 0) (hlast : c.chain.getLast? = some lastB) :
    c.AddTransaction fa ta am ts fuel =
      Outcome.ok { c with chain := c.chain ++
        [{ data := some ⟨fa, ta, am⟩, hash := "", previousHash := lastB.hash,
           timestamp := ts, pow := 0 }] } := by
  rw [Blockchain.AddTransaction, hlast]
  dsimp only
  rw [hd, mine_zero]

theorem isValidAux_false_of_second (g b1 : Block) (rest : List Block)
    (hb : b1.hash ≠ b1.calculateHash) :
    isValidAux (g :: b1 :: rest) = false := by
  rw [isValidAux, if_pos (by simp [hb])]

/-- The invariant maintained by a run of appends at difficulty zero: every
block after the head keeps an empty stored hash and a zero proof of work, and
each append extends the chain by one block. -/
theorem runTxs_zero_inv :
    ∀ (txs : List TxInput) (c c' : Blockchain),
      c.difficulty = 0 →
      (∃ g t, c.chain = g :: t ∧ ∀ b ∈ t, b.hash = "" ∧ b.pow = 0) →
      runTxs c txs = Outcome.ok c' →
      c'.chain.length = c.chain.length + txs.length ∧
      ∃ g t', c'.chain = g :: t' ∧ ∀ b ∈ t', b.hash = "" ∧ b.pow = 0 := by
  intro txs
  induction txs with
  | nil =>
    intro c c' hd hinv h
    rw [runTxs] at h
    cases h
    obtain ⟨g, t, hchain, htail⟩ := hinv
    exact ⟨by simp, g, t, hchain, htail⟩
  | cons t rest ih =>
    intro c c' hd hinv h
    obtain ⟨g, tl, hchain, htail⟩ := hinv
    have hlast : ∃ lastB, c.chain.getLast? = some lastB := by
      rw [hchain]
      cases hq : (g :: tl).getLast? with
      | none => simp at hq
      | some x => exact ⟨x, rfl⟩
    obtain ⟨lastB, hlast⟩ := hlast
    rw [runTxs, addTransaction_zero c t.fromAddr t.toAddr t.amountRepr t.ts t.fuel lastB hd hlast] at h
    dsimp only at h
    have hstep := ih _ c' (by simp [hd]) ?_ h
    · obtain ⟨hlen, g2, t2, hchain2, htail2⟩ := hstep
      refine ⟨?_, g2, t2, hchain2, htail2⟩
      simp at hlen
      simp [hlen]
      omega
    · refine ⟨g, tl ++
        [Block.mk (some ⟨t.fromAddr, t.toAddr, t.amountRepr⟩) "" lastB.hash t.ts 0], ?_, ?_⟩
      · simp [hchain]
      · intro b hb
        rcases List.mem_append.mp hb with hmem | hmem
        · exact htail b hmem
        · rcases List.mem_singleton.mp hmem with rfl
          exact ⟨rfl, rfl⟩

/-! ## The claims -/

/-- C1: `IsValid` returns true if and only if, for every adjacent pair
`(previous, current)` in the block sequence from the second block onward, the
current block's stored hash equals its recomputed hash and its previous-hash
link equals the previous block's stored hash; it returns false exactly when
some pair fails either check.  (Stated for chains with at least one block,
the only chains the package constructs; on a chain with no block at all the
Go traversal would panic on the slice expression.) -/
theorem c1_isValid_iff_pairs (c : Blockchain) (hne : c.chain ≠ []) :
    c.IsValid = true ↔
      ∀ (i : Nat) (h : i + 1 < c.chain.length),
        ((c.chain.get ⟨i + 1, h⟩).hash = (c.chain.get ⟨i + 1, h⟩).calculateHash ∧
         (c.chain.get ⟨i + 1, h⟩).previousHash =
           (c.chain.get ⟨i, Nat.lt_of_succ_lt h⟩).hash) :=
  (isValidAux_eq_true_iff_pairsOk c.chain).trans (pairsOk_iff_get c.chain)

theorem c1_isValid_iff_pairs_witness :
    (CreateBlockchain 2 "g").chain ≠ [] ∧
      ((CreateBlockchain 2 "g").IsValid = true ↔
        ∀ (i : Nat) (h : i + 1 < (CreateBlockchain 2 "g").chain.length),
          (((CreateBlockchain 2 "g").chain.get ⟨i + 1, h⟩).hash =
             ((CreateBlockchain 2 "g").chain.get ⟨i + 1, h⟩).calculateHash ∧
           ((CreateBlockchain 2 "g").chain.get ⟨i + 1, h⟩).previousHash =
             ((CreateBlockchain 2 "g").chain.get ⟨i, Nat.lt_of_succ_lt h⟩).hash)) :=
  ⟨by simp [CreateBlockchain], c1_isValid_iff_pairs _ (by simp [CreateBlockchain])⟩

/-- C5: for every difficulty, immediately after `CreateBlockchain` and before
any `AddTransaction` call, `IsValid` returns true — the sequence holds only
the genesis block, so no adjacent pair is checked. -/
theorem c5_fresh_isValid (d : Int) (ts : String) :
    (CreateBlockchain d ts).IsValid = true := rfl

/-- C6: `calculateHash` is a deterministic pure function of the block's
fields: it depends only on the payload, the previous-hash link, the
timestamp and the proof of work (in the embedding it is a function, so the
absence of mutation and of side effects is by construction, and two calls on
the same block agree definitionally). -/
theorem c6_calculateHash_deterministic (b1 b2 : Block)
    (hdata : b1.data = b2.data) (hprev : b1.previousHash = b2.previousHash)
    (hts : b1.timestamp = b2.timestamp) (hpow : b1.pow = b2.pow) :
    b1.calculateHash = b2.calculateHash := by
  rw [Block.calculateHash, Block.calculateHash, hdata, hprev, hts, hpow]

theorem c6_calculateHash_deterministic_witness :
    (Block.mk none "x" "p" "t" 3).data = (Block.mk none "y" "p" "t" 3).data ∧
    (Block.mk none "x" "p" "t" 3).previousHash = (Block.mk none "y" "p" "t" 3).previousHash ∧
    (Block.mk none "x" "p" "t" 3).timestamp = (Block.mk none "y" "p" "t" 3).timestamp ∧
    (Block.mk none "x" "p" "t" 3).pow = (Block.mk none "y" "p" "t" 3).pow ∧
    (Block.mk none "x" "p" "t" 3).calculateHash = (Block.mk none "y" "p" "t" 3).calculateHash :=
  ⟨rfl, rfl, rfl, rfl, c6_calculateHash_deterministic _ _ rfl rfl rfl rfl⟩

/-- C7: `CreateBlockchain` returns a ledger whose genesis block has hash
`"0"`, no payload, the construction timestamp, an empty previous hash and
zero proof of work; whose block sequence is exactly that genesis block; and
whose difficulty field is the given difficulty. -/
theorem c7_createBlockchain (d : Int) (ts : String) :
    (CreateBlockchain d ts).genesisBlock.hash = "0" ∧
    (CreateBlockchain d ts).genesisBlock.data = none ∧
    (CreateBlockchain d ts).genesisBlock.previousHash = "" ∧
    (CreateBlockchain d ts).genesisBlock.timestamp = ts ∧
    (CreateBlockchain d ts).genesisBlock.pow = 0 ∧
    (CreateBlockchain d ts).chain = [(CreateBlockchain d ts).genesisBlock] ∧
    (CreateBlockchain d ts).difficulty = d :=
  ⟨rfl, rfl, rfl, rfl, rfl, rfl, rfl⟩

/-- C3 (counterexample to the claim as stated): at difficulty 0 on a freshly
constructed block, the mining loop performs zero iterations (the claim says
exactly one), and the stored hash is the unchanged empty string, not the hash
recomputed at proof 1 (the recomputed hash is a 64-character digest). -/
theorem c3_counterexample :
    Block.mine (Block.mk none "" "" "t" 0) 0 9 = Outcome.ok (Block.mk none "" "" "t" 0, 0) ∧
    ¬ ((0 : Nat) = 1 ∧
       (Block.mk none "" "" "t" 0).hash = (Block.mk none "" "" "t" 1).calculateHash) :=
  ⟨rfl, fun hcl => absurd hcl.1 (by decide)⟩

/-- C3 (amended): when `mine` is called with difficulty 0 on a freshly
constructed block (`pow = 0`, empty hash), the loop body runs zero times —
`AddTransaction` performs zero hash computation attempts, and the appended
block keeps the empty stored hash and `proof = 0` (the loop condition is
tested before the body, and every string starts with the empty zero
target). -/
theorem c3_mine_zero_runs_no_iteration (payload : Option Payload) (prevHash ts : String)
    (fuel : Nat) :
    Block.mine (Block.mk payload "" prevHash ts 0) 0 fuel =
      Outcome.ok (Block.mk payload "" prevHash ts 0, 0) :=
  mine_zero _ fuel

/-- C4: for every difficulty `d ≥ 0`, whenever `mine` terminates the block's
stored hash begins with at least `d` zero characters, and hence the block
appended by a successful `AddTransaction` at ledger difficulty `d` has at
least `d` leading zero characters in its stored hash. -/
theorem c4_mined_leading_zeros (d : Int) (hd : 0 ≤ d) :
    (∀ (b : Block) (fuel : Nat) (b' : Block) (n : Nat),
        b.mine d fuel = Outcome.ok (b', n) →
        List.IsPrefix (List.replicate d.toNat '0') b'.hash.data) ∧
    (∀ (c : Blockchain) (fa ta am ts : String) (fuel : Nat) (c' : Blockchain),
        c.difficulty = d →
        c.AddTransaction fa ta am ts fuel = Outcome.ok c' →
        ∃ mined, c'.chain.getLast? = some mined ∧
          List.IsPrefix (List.replicate d.toNat '0') mined.hash.data) := by
  constructor
  · intro b fuel b' n h
    exact mine_ok_starts b d fuel b' n hd h
  · intro c fa ta am ts fuel c' hdiff h
    obtain ⟨lastB, mined, n, hlast, hmine, hc⟩ := addTransaction_ok c fa ta am ts fuel c' h
    refine ⟨mined, ?_, ?_⟩
    · rw [hc]
      exact List.getLast?_concat _
    · exact mine_ok_starts _ d fuel mined n hd (hdiff ▸ hmine)

theorem c4_mined_leading_zeros_witness :
    (0 : Int) ≤ 0 ∧
    Block.mine (Block.mk none "" "" "t" 0) 0 5 = Outcome.ok (Block.mk none "" "" "t" 0, 0) ∧
    List.IsPrefix (List.replicate (0 : Int).toNat '0') (Block.mk none "" "" "t" 0).hash.data :=
  ⟨by decide, rfl,
   (c4_mined_leading_zeros 0 (by decide)).1 (Block.mk none "" "" "t" 0) 5
     (Block.mk none "" "" "t" 0) 0 rfl⟩

/-- C9: on a ledger whose difficulty is negative, every `AddTransaction`
call fails with a runtime panic instead of appending a block: `mine`
evaluates `strings.Repeat` with a negative count, which panics before any
hash is computed. -/
theorem c9_negative_difficulty (c : Blockchain) (fa ta am ts : String) (fuel : Nat)
    (hd : c.difficulty < 0) :
    c.AddTransaction fa ta am ts fuel = Outcome.crash := by
  rw [Blockchain.AddTransaction]
  cases hl : c.chain.getLast? with
  | none => rfl
  | some lastB =>
    dsimp only
    rw [Block.mine, strRepeat, if_pos hd]

theorem c9_negative_difficulty_witness :
    (CreateBlockchain (-1) "g").difficulty < 0 ∧
    (CreateBlockchain (-1) "g").AddTransaction "Alice" "Bob" "5" "t" 7 = Outcome.crash :=
  ⟨by decide, c9_negative_difficulty _ "Alice" "Bob" "5" "t" 7 (by decide)⟩

/-- C2 (counterexample to the claim as stated): the claim quantifies over
every difficulty `d ≥ 0`, but at `d = 0` a single `AddTransaction` appends a
block whose stored hash (the empty string, since the mining loop never runs)
differs from its recomputed 64-character hash. -/
theorem c2_counterexample :
    (0 : Int) ≥ 0 ∧
    runTxs (CreateBlockchain 0 "g") [TxInput.mk "Alice" "Bob" "5" "t" 3] =
      Outcome.ok (Blockchain.mk (Block.mk none "0" "" "g" 0)
        [Block.mk none "0" "" "g" 0, Block.mk (some ⟨"Alice", "Bob", "5"⟩) "" "0" "t" 0] 0) ∧
    (Block.mk (some ⟨"Alice", "Bob", "5"⟩) "" "0" "t" 0).hash ≠
      (Block.mk (some ⟨"Alice", "Bob", "5"⟩) "" "0" "t" 0).calculateHash :=
  ⟨by decide, rfl, fun h => empty_ne_calculateHash _ h⟩

/-- C2 (amended): for every ledger obtained by `CreateBlockchain` at a
difficulty `d ≥ 1` followed by any finite sequence of successful
`AddTransaction` calls, every block except the genesis block satisfies
`hash = calculateHash ()` and `previousHash =` the preceding block's stored
hash. -/
theorem c2_chain_invariant (d : Int) (ts : String) (txs : List TxInput) (c : Blockchain)
    (hd : 1 ≤ d)
    (hrun : runTxs (CreateBlockchain d ts) txs = Outcome.ok c) :
    ∀ (i : Nat) (h : i + 1 < c.chain.length),
      ((c.chain.get ⟨i + 1, h⟩).hash = (c.chain.get ⟨i + 1, h⟩).calculateHash ∧
       (c.chain.get ⟨i + 1, h⟩).previousHash =
         (c.chain.get ⟨i, Nat.lt_of_succ_lt h⟩).hash) := by
  have hinv := runTxs_ok_inv d hd txs (CreateBlockchain d ts) c rfl
    (by simp [CreateBlockchain]) trivial hrun
  exact (pairsOk_iff_get c.chain).mp hinv.2.2

set_option maxRecDepth 40000

/-- The concrete chain `c2_chain_invariant_witness` exhibits: one
transaction mined at difficulty 1 (the hash was found at `pow = 1`). -/
def c2WitnessChain : Blockchain :=
  Blockchain.mk (Block.mk none "0" "" "g" 0)
    [Block.mk none "0" "" "g" 0,
     Block.mk (some ⟨"Alice", "Bob", "5"⟩)
       "0a1cd7394f3f79ba5aae1fca1cc25787e52050ce8eb2af721abddada803e517e" "0" "t4" 1] 1

theorem c2_chain_invariant_witness :
    (1 : Int) ≤ 1 ∧
    runTxs (CreateBlockchain 1 "g") [TxInput.mk "Alice" "Bob" "5" "t4" 2] =
      Outcome.ok c2WitnessChain ∧
    (∀ (i : Nat) (h : i + 1 < c2WitnessChain.chain.length),
      ((c2WitnessChain.chain.get ⟨i + 1, h⟩).hash =
         (c2WitnessChain.chain.get ⟨i + 1, h⟩).calculateHash ∧
       (c2WitnessChain.chain.get ⟨i + 1, h⟩).previousHash =
         (c2WitnessChain.chain.get ⟨i, Nat.lt_of_succ_lt h⟩).hash)) :=
  ⟨by decide, by decide,
   c2_chain_invariant 1 "g" [TxInput.mk "Alice" "Bob" "5" "t4" 2] c2WitnessChain
     (by decide) (by decide)⟩

/-- C10: on a ledger created at difficulty 0, every successful sequence of
`AddTransaction` calls appends only blocks whose stored hash is the empty
string and whose proof of work is 0 (the mining loop condition is satisfied
immediately by the empty zero target, so the loop never runs), and once at
least one block has been appended `IsValid` returns false. -/
theorem c10_difficulty_zero (ts : String) (txs : List TxInput) (c : Blockchain)
    (hne : txs ≠ [])
    (hrun : runTxs (CreateBlockchain 0 ts) txs = Outcome.ok c) :
    (∀ b ∈ c.chain.tail, b.hash = "" ∧ b.pow = 0) ∧ c.IsValid = false := by
  have hinv := runTxs_zero_inv txs (CreateBlockchain 0 ts) c rfl
    ⟨Block.mk none "0" "" ts 0, [], rfl, by simp⟩ hrun
  obtain ⟨hlen, g, t', hchain, htail⟩ := hinv
  have hlen2 : c.chain.length = 1 + txs.length := by
    simpa [CreateBlockchain] using hlen
  constructor
  · rw [hchain]
    exact htail
  · have hne2 : t' ≠ [] := by
      intro ht
      rw [hchain, ht] at hlen2
      simp at hlen2
      exact hne hlen2
    cases t' with
    | nil => exact absurd rfl hne2
    | cons b1 rest =>
      have hb1 : b1.hash = "" := (htail b1 (by simp)).1
      rw [Blockchain.IsValid, hchain]
      exact isValidAux_false_of_second g b1 rest (hb1 ▸ empty_ne_calculateHash b1)

theorem c10_difficulty_zero_witness :
    ([TxInput.mk "Alice" "Bob" "5" "t" 3] : List TxInput) ≠ [] ∧
    runTxs (CreateBlockchain 0 "gg") [TxInput.mk "Alice" "Bob" "5" "t" 3] =
      Outcome.ok (Blockchain.mk (Block.mk none "0" "" "gg" 0)
        [Block.mk none "0" "" "gg" 0, Block.mk (some ⟨"Alice", "Bob", "5"⟩) "" "0" "t" 0] 0) ∧
    ((∀ b ∈ (Blockchain.mk (Block.mk none "0" "" "gg" 0)
        [Block.mk none "0" "" "gg" 0, Block.mk (some ⟨"Alice", "Bob", "5"⟩) "" "0" "t" 0]
        0).chain.tail, b.hash = "" ∧ b.pow = 0) ∧
      (Blockchain.mk (Block.mk none "0" "" "gg" 0)
        [Block.mk none "0" "" "gg" 0, Block.mk (some ⟨"Alice", "Bob", "5"⟩) "" "0" "t" 0]
        0).IsValid = false) :=
  ⟨by simp, rfl,
   c10_difficulty_zero "gg" [TxInput.mk "Alice" "Bob" "5" "t" 3] _ (by simp) rfl⟩
